import Mathlib

/-!
Verification development for `rhasspyfuzzywuzzy_hermes/__init__.py`
(class `NluHermesMqtt`).

Modelling conventions:
* Python `dict`s are insertion-ordered association lists over `String` keys,
  with assignment replacing the value in place when the key already exists and
  appending otherwise (`insertAssoc`).
* Confidence values (`float` in Python, always of the form `score / 100` with
  an integer `score`) are modelled as rationals `ℚ`.
* External collaborators are parameters of the embedded functions:
  the fuzzywuzzy scorer (including its `full_process` preprocessing) is a
  `String → String → Nat` argument, `rhasspynlu.numbers.replace_numbers` is a
  `List String → List String` argument, and
  `rhasspynlu.fsticuffs.path_to_recognition` is a
  `List Nat → NxGraph → Option Recognition` argument.
* Wall-clock timing (`recognize_seconds`) is not modelled.
-/

/-- Python dict lookup (`d[t]` / `d.get(t)`) on an insertion-ordered
association list. -/
def lookupAssoc {α : Type} (t : String) : List (String × α) → Option α
  | [] => none
  | (k, v) :: rest => if k = t then some v else lookupAssoc t rest

/-- Python dict assignment `d[k] = v`: replace the value in place when the key
exists (the key keeps its original position), append otherwise. -/
def insertAssoc {α : Type} (k : String) (v : α) : List (String × α) → List (String × α)
  | [] => [(k, v)]
  | (k2, v2) :: rest =>
    if k2 = k then (k2, v) :: rest else (k2, v2) :: insertAssoc k v rest

/-- Keys of an association list, in insertion order (Python `d.keys()`). -/
def keysOf {α : Type} (l : List (String × α)) : List String := l.map Prod.fst

/-- Helper for `pySplit`: walk the character list, accumulating the current
word reversed. -/
def wordsAux : List Char → List Char → List String
  | [], [] => []
  | [], cur => [String.mk cur.reverse]
  | c :: rest, cur =>
    if c.isWhitespace then
      match cur with
      | [] => wordsAux rest []
      | _ => String.mk cur.reverse :: wordsAux rest []
    else wordsAux rest (c :: cur)

/-- Python `s.split()` with no separator: split on whitespace runs, dropping
empty pieces. -/
def pySplit (s : String) : List String := wordsAux s.data []

/-- Python `" ".join(words)`. -/
def joinSpace : List String → String
  | [] => ""
  | [w] => w
  | w :: rest => w ++ " " ++ joinSpace rest

/-- A path through the intent graph: the node-id list stored as the value of
each example (`typing.List[int]` in the source; all ids are non-negative). -/
abbrev ExamplePath := List Nat

/-- Examples of one intent: Python dict `example_text -> path`. -/
abbrev ExampleMap := List (String × ExamplePath)

/-- The examples index: Python dict `intent_name -> (example_text -> path)`. -/
abbrev Examples := List (String × ExampleMap)

/-- The `nx.DiGraph` intent graph. Recognition only consults it through the
external `path_to_recognition` collaborator, and `handle_query` only tests its
Python truthiness (number of nodes), so the node list is all we keep. -/
structure NxGraph where
  nodes : List Nat
  deriving DecidableEq

/-- Model of `rhasspyhermes.intent.Intent` as used inside a `Recognition`. -/
structure Intent where
  name : String
  confidence : ℚ
  deriving DecidableEq

/-- One slot/entity record of a `Recognition`. -/
structure Entity where
  entity : String
  value : String
  rawValue : String
  rawStart : Nat
  rawEnd : Nat
  deriving DecidableEq

/-- Model of `rhasspynlu.intent.Recognition` (the fields `recognize` reads or writes;
`recognize_seconds` is wall-clock time and is not modelled). -/
structure Recognition where
  intent : Intent
  entities : List Entity
  rawText : String
  rawTokens : List String
  deriving DecidableEq

/-- Exceptions and outcomes that can leave `recognize`. `typeError`,
`keyError` and `assertionError` are the Python exceptions of the code paths in
`recognize`; `noTrainedData` is modelled from the spec: it is the structured
outcome §4.3 step 4 and §7 prescribe for an empty candidate set, and no code
path produces it. -/
inductive RecognizeError
  | typeError
  | keyError
  | assertionError
  | noTrainedData
  deriving DecidableEq

/-- One step of the running-maximum scan inside `extractOne`. Python `max`
returns the first element among equal maxima, so a later candidate replaces
the current best only on a strictly greater score. -/
def extractStep (scorer : String → String → Nat) (q : String)
    (best : Option (String × Nat)) (t : String) : Option (String × Nat) :=
  match best with
  | none => some (t, scorer q t)
  | some (bt, bs) => if bs < scorer q t then some (t, scorer q t) else some (bt, bs)

/-- Model of `fuzzywuzzy.process.extractOne(query, choices)`: the best
`(choice, score)` pair over the candidate texts in iteration order, `None`
when there are no candidates (the default `score_cutoff=0` never filters a
candidate out since scores are naturals). The `scorer` parameter absorbs the
processing and WRatio scoring of the external library. -/
def extractOne (scorer : String → String → Nat) (q : String) (keys : List String) :
    Option (String × Nat) :=
  keys.foldl (extractStep scorer q) none

/-- The `replace_numbers` prologue of `recognize`:
`input_text = " ".join(replace_numbers(input_text.split(), language))` when
enabled, the unchanged input otherwise. `rw` is the external
`rhasspynlu.numbers.replace_numbers` collaborator (with its language fixed). -/
def expandInput (rw : List String → List String) (replaceNumbers : Bool)
    (inputText : String) : String :=
  if replaceNumbers then joinSpace (rw (pySplit inputText)) else inputText

/-- The field updates `recognize` performs on the decoded recognition:
`confidence = best_score / 100`, `raw_text = input_text`,
`raw_tokens = input_text.split()`. -/
def finalizeRecognition (r : Recognition) (score : Nat) (text : String) : Recognition :=
  { r with
    intent := { r.intent with confidence := (score : ℚ) / 100 },
    rawText := text,
    rawTokens := pySplit text }

/-- Fold the `(text, path)` entries of one intent into the accumulated candidate
dict (the inner loop of the `choices` dict comprehension). -/
def insertAll {α : Type} (acc : List (String × α)) (m : List (String × α)) :
    List (String × α) :=
  m.foldl (fun a kv => insertAssoc kv.1 kv.2 a) acc

/-- The `choices` dict comprehension of `recognize`: the entries of every
intent passing `intent_filter`, folded in iteration order with dict-overwrite
semantics. -/
def buildChoices (fil : String → Bool) (ex : Examples) : ExampleMap :=
  ex.foldl (fun acc im => if fil im.1 then insertAll acc im.2 else acc) []

/-- Last stage of `recognize`: `path_to_recognition` returned `recognition`
(or `None`, which trips the `assert recognition`), then the fields are
updated. -/
def recognizeStep3 (score : Nat) (text : String) :
    Option Recognition → Except RecognizeError (List Recognition)
  | none => Except.error RecognizeError.assertionError
  | some r => Except.ok [finalizeRecognition r score text]

/-- Middle stage of `recognize`: `best_path = choices[best_text]` (a missing
key would raise `KeyError`), then decode via the external
`path_to_recognition`. -/
def recognizeStep2 (p2r : ExamplePath → NxGraph → Option Recognition) (g : NxGraph)
    (choices : ExampleMap) (text : String) (score : Nat) :
    Option ExamplePath → Except RecognizeError (List Recognition)
  | none => Except.error RecognizeError.keyError
  | some bestPath => recognizeStep3 score text (p2r bestPath g)

/-- First stage of `recognize`: unpack
`best_text, best_score = fuzzywuzzy.process.extractOne(...)`; when the
candidate dict is empty `extractOne` returns `None` and the unpacking raises
`TypeError`. -/
def recognizeStep1 (p2r : ExamplePath → NxGraph → Option Recognition) (g : NxGraph)
    (choices : ExampleMap) (text : String) :
    Option (String × Nat) → Except RecognizeError (List Recognition)
  | none => Except.error RecognizeError.typeError
  | some (bestText, bestScore) =>
    recognizeStep2 p2r g choices text bestScore (lookupAssoc bestText choices)

/-- Model of `NluHermesMqtt.recognize`. `scorer` is the external fuzzywuzzy scorer,
`rw` the external numeral expander, `p2r` the external
`rhasspynlu.fsticuffs.path_to_recognition`. An absent `intent_filter` becomes
`lambda i: True`. The result is either the singleton recognition list the
source returns or the Python exception escaping the call. -/
def recognize (scorer : String → String → Nat) (rw : List String → List String)
    (p2r : ExamplePath → NxGraph → Option Recognition)
    (inputText : String) (intentGraph : NxGraph) (examples : Examples)
    (intentFilter : Option (String → Bool)) (replaceNumbers : Bool) :
    Except RecognizeError (List Recognition) :=
  recognizeStep1 p2r intentGraph
    (buildChoices (intentFilter.getD (fun _ => true)) examples)
    (expandInput rw replaceNumbers inputText)
    (extractOne scorer (expandInput rw replaceNumbers inputText)
      (keysOf (buildChoices (intentFilter.getD (fun _ => true)) examples)))

/-- The fold of `NluHermesMqtt.train` that turns one enumerated
`(intent_name, words, path)` tuple into an index entry:
`examples[intent_name][" ".join(words)] = path`, with `defaultdict(dict)`
creating the inner dict on first use. -/
def addExample (intentName text : String) (path : ExamplePath) : Examples → Examples
  | [] => [(intentName, [(text, path)])]
  | (i, m) :: rest =>
    if i = intentName then (i, insertAssoc text path m) :: rest
    else (i, m) :: addExample intentName text path rest

/-- The examples-index construction loop of `NluHermesMqtt.train`, folded over
the tuples yielded by `generate_examples` (external module `utils`, supplied
here as the already-enumerated list). -/
def buildExamples (ts : List (String × List String × ExamplePath)) : Examples :=
  ts.foldl (fun ex tup => addExample tup.1 (joinSpace tup.2.1) tup.2.2 ex) []

/-- Modelled from the spec (§3, §9): the path the index should associate to
`(i, t)`, namely the path of the last generated tuple of intent `i` whose
space-joined words render `t` ("last-generated path wins"). -/
def lastGeneratedPath (i t : String) (ts : List (String × List String × ExamplePath)) :
    Option ExamplePath :=
  ts.foldl
    (fun acc tup => if i = tup.1 ∧ t = joinSpace tup.2.1 then some tup.2.2 else acc)
    none

/-- Two-level lookup `examples[i][t]` in the index. -/
def lookupExample (ex : Examples) (i t : String) : Option ExamplePath :=
  match lookupAssoc i ex with
  | some m => lookupAssoc t m
  | none => none

/-- The in-memory state of an `NluHermesMqtt` instance that training and
querying touch, together with the parsed contents of the two persistence
files (`none` models "no path configured, the path is not a file"). -/
structure ServerState where
  intentGraph : Option NxGraph
  examples : Option Examples
  intentGraphFile : Option NxGraph
  examplesFile : Option Examples
  deriving DecidableEq

/-- The messages `handle_train` returns: `NluTrainSuccess(id=message.id)` or
`NluError(siteId=siteId, error=str(e), context=message.id)`. -/
inductive TrainOutcome
  | trainSuccess (id : Option String)
  | nluError (siteId : String) (error : String) (context : Option String)
  deriving DecidableEq

/-- Model of `NluHermesMqtt.handle_train`. The call to `NluHermesMqtt.train` is
modelled by its outcome `trainResult`: the returned `(graph, examples)` pair,
or `str(e)` of the exception it raised. The Python tuple assignment
`self.intent_graph, self.examples = train(...)` evaluates the call first and
binds both attributes only after it returns, so on an exception the state is
untouched. -/
def handle_train (st : ServerState) (msgId : Option String) (siteId : String)
    (trainResult : Except String (NxGraph × Examples)) : ServerState × TrainOutcome :=
  match trainResult with
  | Except.ok ge =>
    ({ st with intentGraph := some ge.1, examples := some ge.2 },
      TrainOutcome.trainSuccess msgId)
  | Except.error e => (st, TrainOutcome.nluError siteId e msgId)

/-- Python truthiness of `self.intent_graph`: `None` and a node-less
`nx.DiGraph` (whose `len` is 0) are falsy. -/
def graphTruthy : Option NxGraph → Bool
  | none => false
  | some g => !g.nodes.isEmpty

/-- Python truthiness of `self.examples`: `None` and the empty dict are
falsy. -/
def examplesTruthy : Option Examples → Bool
  | none => false
  | some ex => !ex.isEmpty

/-- The lazy graph load at the top of `handle_query`: when the in-memory graph
is falsy and the configured path is a file, the parsed file contents are
assigned to `self.intent_graph`; otherwise the attribute is untouched. -/
def effectiveGraph (st : ServerState) : Option NxGraph :=
  if graphTruthy st.intentGraph then st.intentGraph
  else
    match st.intentGraphFile with
    | some g => some g
    | none => st.intentGraph

/-- The lazy examples load of `handle_query`, mirroring `effectiveGraph`. -/
def effectiveExamples (st : ServerState) : Option Examples :=
  if examplesTruthy st.examples then st.examples
  else
    match st.examplesFile with
    | some ex => some ex
    | none => st.examples

/-- The state after the two lazy-load blocks of `handle_query` ran. -/
def afterLoad (st : ServerState) : ServerState :=
  { st with intentGraph := effectiveGraph st, examples := effectiveExamples st }

/-- The fields of `rhasspyhermes.nlu.NluQuery` that `handle_query` reads. -/
structure NluQuery where
  input : String
  id : Option String
  siteId : String
  sessionId : Option String
  intentFilter : Option (List String)
  deriving DecidableEq

/-- The closure `intent_filter` defined inside `handle_query`: a falsy
`query.intentFilter` (absent, or the empty list) admits every intent,
otherwise membership decides. -/
def queryIntentFilter (q : NluQuery) (intentName : String) : Bool :=
  match q.intentFilter with
  | some l => if l.isEmpty then true else l.contains intentName
  | none => true

/-- What `handle_query` publishes (or, for `raised`, the exception escaping it
to the blanket handler of the caller). `intent` carries the input, intent
name and confidence score of the published `NluIntent`. -/
inductive QueryOutcome
  | intent (input : String) (intentName : String) (confidence : ℚ)
  | notRecognized (input : String)
  | raised (e : RecognizeError)
  deriving DecidableEq

/-- Model of `NluHermesMqtt.handle_query`: lazy-load graph and examples, test their
Python truthiness, recognize, and publish `NluIntent` from the first
recognition or `NluIntentNotRecognized` when the recognition list is empty
(which is also the branch taken when graph or examples are unavailable). -/
def handle_query (scorer : String → String → Nat) (rw : List String → List String)
    (p2r : ExamplePath → NxGraph → Option Recognition)
    (st : ServerState) (q : NluQuery) : ServerState × QueryOutcome :=
  match effectiveGraph st, effectiveExamples st with
  | some g, some ex =>
    if graphTruthy (some g) && examplesTruthy (some ex) then
      match recognize scorer rw p2r q.input g ex (some (queryIntentFilter q)) true with
      | Except.error e => (afterLoad st, QueryOutcome.raised e)
      | Except.ok [] => (afterLoad st, QueryOutcome.notRecognized q.input)
      | Except.ok (r :: _) =>
        (afterLoad st, QueryOutcome.intent q.input r.intent.name r.intent.confidence)
    else (afterLoad st, QueryOutcome.notRecognized q.input)
  | _, _ => (afterLoad st, QueryOutcome.notRecognized q.input)

/-- JSON values as produced by `json.dump(examples, f)` and consumed by
`json.load`: the serialized index only contains objects, arrays and
non-negative integers. -/
inductive JsonValue
  | num (n : Nat)
  | arr (items : List JsonValue)
  | obj (members : List (String × JsonValue))

/-- Decode one JSON number. -/
def decodeNum : JsonValue → Option Nat
  | JsonValue.num n => some n
  | _ => none

/-- Decode a JSON array of numbers. -/
def decodeNums : List JsonValue → Option (List Nat)
  | [] => some []
  | v :: rest =>
    match decodeNum v, decodeNums rest with
    | some n, some ns => some (n :: ns)
    | _, _ => none

/-- Serialization of a path: a JSON array of its node ids. -/
def pathToJson (p : ExamplePath) : JsonValue :=
  JsonValue.arr (p.map JsonValue.num)

/-- Deserialization of a path. -/
def jsonToPath : JsonValue → Option ExamplePath
  | JsonValue.arr items => decodeNums items
  | _ => none

/-- Object handling of `json.load`: members are folded in document order into
a fresh dict, a duplicate key overwriting the earlier value. -/
def foldObj {α : Type} (decodeVal : JsonValue → Option α) :
    List (String × JsonValue) → List (String × α) → Option (List (String × α))
  | [], acc => some acc
  | (k, v) :: rest, acc =>
    match decodeVal v with
    | some a => foldObj decodeVal rest (insertAssoc k a acc)
    | none => none

/-- Serialization of the `text -> path` dict of one intent. -/
def innerToJson (m : ExampleMap) : JsonValue :=
  JsonValue.obj (m.map (fun kv => (kv.1, pathToJson kv.2)))

/-- Deserialization of the `text -> path` dict of one intent. -/
def jsonToInner : JsonValue → Option ExampleMap
  | JsonValue.obj members => foldObj jsonToPath members []
  | _ => none

/-- The `json.dump` serialization of the whole examples index (the write in `train`). -/
def examplesToJson (ex : Examples) : JsonValue :=
  JsonValue.obj (ex.map (fun im => (im.1, innerToJson im.2)))

/-- The `json.load` deserialization of the whole examples index (the read in `handle_query`). -/
def jsonToExamples : JsonValue → Option Examples
  | JsonValue.obj members => foldObj jsonToInner members []
  | _ => none

/-! Association-list lemmas. -/

theorem lookupAssoc_mem {α : Type} (t : String) (l : List (String × α)) (v : α)
    (h : lookupAssoc t l = some v) : (t, v) ∈ l := by
  induction l with
  | nil => simp [lookupAssoc] at h
  | cons kv rest ih =>
    obtain ⟨k2, v2⟩ := kv
    by_cases h2 : k2 = t
    · subst h2
      simp [lookupAssoc] at h
      subst h
      exact List.mem_cons_self _ _
    · simp [lookupAssoc, h2] at h
      exact List.mem_cons_of_mem _ (ih h)

theorem lookup_isSome_of_mem_keys {α : Type} (t : String) (l : List (String × α))
    (h : t ∈ keysOf l) : ∃ v, lookupAssoc t l = some v := by
  induction l with
  | nil => simp [keysOf] at h
  | cons kv rest ih =>
    obtain ⟨k2, v2⟩ := kv
    by_cases h2 : k2 = t
    · exact ⟨v2, by simp [lookupAssoc, h2]⟩
    · have : t ∈ keysOf rest := by
        simp [keysOf] at h
        rcases h with h | h
        · exact absurd h.symm h2
        · simpa [keysOf] using h
      obtain ⟨v, hv⟩ := ih this
      exact ⟨v, by simp [lookupAssoc, h2, hv]⟩

theorem keysOf_nil {α : Type} : keysOf ([] : List (String × α)) = [] := rfl

theorem keysOf_cons {α : Type} (k : String) (v : α) (l : List (String × α)) :
    keysOf ((k, v) :: l) = k :: keysOf l := rfl

theorem mem_keys_insertAssoc {α : Type} (t k : String) (v : α) (l : List (String × α)) :
    t ∈ keysOf (insertAssoc k v l) ↔ t = k ∨ t ∈ keysOf l := by
  induction l with
  | nil => simp [insertAssoc, keysOf]
  | cons kv rest ih =>
    obtain ⟨k2, v2⟩ := kv
    by_cases h2 : k2 = k
    · subst h2
      have he : insertAssoc k2 v ((k2, v2) :: rest) = (k2, v) :: rest := by
        simp [insertAssoc]
      rw [he, keysOf_cons, keysOf_cons]
      simp only [List.mem_cons]
      tauto
    · have he : insertAssoc k v ((k2, v2) :: rest) = (k2, v2) :: insertAssoc k v rest := by
        simp [insertAssoc, h2]
      rw [he, keysOf_cons, keysOf_cons]
      simp only [List.mem_cons, ih]
      tauto

theorem mem_insertAssoc_elim {α : Type} (x : String × α) (k : String) (v : α)
    (l : List (String × α)) (h : x ∈ insertAssoc k v l) : x = (k, v) ∨ x ∈ l := by
  induction l with
  | nil => simpa [insertAssoc] using h
  | cons kv rest ih =>
    obtain ⟨k2, v2⟩ := kv
    by_cases h2 : k2 = k
    · subst h2
      simp [insertAssoc] at h
      rcases h with h | h
      · left; simpa using h
      · right; exact List.mem_cons_of_mem _ h
    · simp [insertAssoc, h2] at h
      rcases h with h | h
      · right; simp [h]
      · rcases ih h with h3 | h3
        · left; exact h3
        · right; exact List.mem_cons_of_mem _ h3

theorem lookupAssoc_insertAssoc {α : Type} (k t : String) (v : α) (l : List (String × α)) :
    lookupAssoc t (insertAssoc k v l) = if k = t then some v else lookupAssoc t l := by
  induction l with
  | nil => simp [insertAssoc, lookupAssoc]
  | cons kv rest ih =>
    obtain ⟨k2, v2⟩ := kv
    by_cases h2 : k2 = k
    · subst h2
      by_cases h3 : k2 = t <;> simp [insertAssoc, lookupAssoc, h3]
    · by_cases h3 : k2 = t
      · subst h3
        have h4 : ¬k = k2 := fun h => h2 h.symm
        simp [insertAssoc, h2, lookupAssoc, h4]
      · simp [insertAssoc, h2, lookupAssoc, h3, ih]

theorem keysOf_nodup_insertAssoc {α : Type} (k : String) (v : α) (l : List (String × α))
    (h : (keysOf l).Nodup) : (keysOf (insertAssoc k v l)).Nodup := by
  induction l with
  | nil => simp [insertAssoc, keysOf]
  | cons kv rest ih =>
    obtain ⟨k2, v2⟩ := kv
    rw [keysOf_cons, List.nodup_cons] at h
    by_cases h2 : k2 = k
    · subst h2
      have he : insertAssoc k2 v ((k2, v2) :: rest) = (k2, v) :: rest := by
        simp [insertAssoc]
      rw [he, keysOf_cons, List.nodup_cons]
      exact h
    · have he : insertAssoc k v ((k2, v2) :: rest) = (k2, v2) :: insertAssoc k v rest := by
        simp [insertAssoc, h2]
      rw [he, keysOf_cons, List.nodup_cons]
      refine ⟨?_, ih h.2⟩
      rw [mem_keys_insertAssoc]
      rintro (h3 | h3)
      · exact h2 h3
      · exact h.1 h3

theorem insertAssoc_fresh {α : Type} (k : String) (v : α) (l : List (String × α))
    (h : k ∉ keysOf l) : insertAssoc k v l = l ++ [(k, v)] := by
  induction l with
  | nil => simp [insertAssoc]
  | cons kv rest ih =>
    obtain ⟨k2, v2⟩ := kv
    rw [keysOf_cons, List.mem_cons] at h
    push_neg at h
    have h2 : k2 ≠ k := fun h3 => h.1 h3.symm
    simp [insertAssoc, h2, ih h.2]

/-! Candidate-set (`buildChoices`) lemmas. -/

theorem mem_keys_insertAll {α : Type} (t : String) (m acc : List (String × α)) :
    t ∈ keysOf (insertAll acc m) ↔ t ∈ keysOf m ∨ t ∈ keysOf acc := by
  induction m generalizing acc with
  | nil => simp [insertAll, keysOf]
  | cons kv rest ih =>
    obtain ⟨k2, v2⟩ := kv
    have : insertAll acc ((k2, v2) :: rest) = insertAll (insertAssoc k2 v2 acc) rest := rfl
    rw [this, ih, mem_keys_insertAssoc]
    simp [keysOf]
    tauto

theorem mem_insertAll_elim {α : Type} (x : String × α) (m acc : List (String × α))
    (h : x ∈ insertAll acc m) : x ∈ m ∨ x ∈ acc := by
  induction m generalizing acc with
  | nil => simpa [insertAll] using h
  | cons kv rest ih =>
    obtain ⟨k2, v2⟩ := kv
    have he : insertAll acc ((k2, v2) :: rest) = insertAll (insertAssoc k2 v2 acc) rest := rfl
    rw [he] at h
    rcases ih _ h with h2 | h2
    · left; exact List.mem_cons_of_mem _ h2
    · rcases mem_insertAssoc_elim _ _ _ _ h2 with h3 | h3
      · left; simp [h3]
      · right; exact h3

theorem mem_keys_buildChoices_fold (fil : String → Bool) (t : String) :
    ∀ (ex : Examples) (acc : ExampleMap),
      t ∈ keysOf (ex.foldl (fun a im => if fil im.1 then insertAll a im.2 else a) acc) ↔
        (∃ i m, (i, m) ∈ ex ∧ fil i = true ∧ t ∈ keysOf m) ∨ t ∈ keysOf acc := by
  intro ex
  induction ex with
  | nil => intro acc; simp
  | cons im rest ih =>
    intro acc
    obtain ⟨i0, m0⟩ := im
    by_cases h0 : fil i0
    · simp only [List.foldl_cons, h0, if_pos]
      rw [ih, mem_keys_insertAll]
      constructor
      · rintro (⟨i, m, hm, hf, ht⟩ | ht | ht)
        · exact Or.inl ⟨i, m, List.mem_cons_of_mem _ hm, hf, ht⟩
        · exact Or.inl ⟨i0, m0, List.mem_cons_self _ _, h0, ht⟩
        · exact Or.inr ht
      · rintro (⟨i, m, hm, hf, ht⟩ | ht)
        · rcases List.mem_cons.mp hm with h2 | h2
          · obtain ⟨h3, h4⟩ := Prod.mk.injEq .. ▸ h2
            subst h3; subst h4
            exact Or.inr (Or.inl ht)
          · exact Or.inl ⟨i, m, h2, hf, ht⟩
        · exact Or.inr (Or.inr ht)
    · simp only [List.foldl_cons, h0, if_neg, Bool.false_eq_true, not_false_iff]
      rw [ih]
      constructor
      · rintro (⟨i, m, hm, hf, ht⟩ | ht)
        · exact Or.inl ⟨i, m, List.mem_cons_of_mem _ hm, hf, ht⟩
        · exact Or.inr ht
      · rintro (⟨i, m, hm, hf, ht⟩ | ht)
        · rcases List.mem_cons.mp hm with h2 | h2
          · obtain ⟨h3, h4⟩ := Prod.mk.injEq .. ▸ h2
            subst h3; subst h4
            exact absurd hf (by simpa using h0)
          · exact Or.inl ⟨i, m, h2, hf, ht⟩
        · exact Or.inr ht

theorem mem_keys_buildChoices (fil : String → Bool) (ex : Examples) (t : String) :
    t ∈ keysOf (buildChoices fil ex) ↔ ∃ i m, (i, m) ∈ ex ∧ fil i = true ∧ t ∈ keysOf m := by
  have := mem_keys_buildChoices_fold fil t ex []
  simpa [buildChoices, keysOf] using this

theorem mem_buildChoices_fold_elim (fil : String → Bool) (x : String × ExamplePath) :
    ∀ (ex : Examples) (acc : ExampleMap),
      x ∈ ex.foldl (fun a im => if fil im.1 then insertAll a im.2 else a) acc →
      (∃ i m, (i, m) ∈ ex ∧ fil i = true ∧ x ∈ m) ∨ x ∈ acc := by
  intro ex
  induction ex with
  | nil => intro acc h; simpa using h
  | cons im rest ih =>
    intro acc h
    obtain ⟨i0, m0⟩ := im
    by_cases h0 : fil i0
    · simp only [List.foldl_cons, h0, if_pos] at h
      rcases ih _ h with ⟨i, m, hm, hf, hx⟩ | hx
      · exact Or.inl ⟨i, m, List.mem_cons_of_mem _ hm, hf, hx⟩
      · rcases mem_insertAll_elim _ _ _ hx with h2 | h2
        · exact Or.inl ⟨i0, m0, List.mem_cons_self _ _, h0, h2⟩
        · exact Or.inr h2
    · simp only [List.foldl_cons, h0, if_neg, Bool.false_eq_true, not_false_iff] at h
      rcases ih _ h with ⟨i, m, hm, hf, hx⟩ | hx
      · exact Or.inl ⟨i, m, List.mem_cons_of_mem _ hm, hf, hx⟩
      · exact Or.inr hx

theorem mem_buildChoices_elim (fil : String → Bool) (ex : Examples)
    (x : String × ExamplePath) (h : x ∈ buildChoices fil ex) :
    ∃ i m, (i, m) ∈ ex ∧ fil i = true ∧ x ∈ m := by
  rcases mem_buildChoices_fold_elim fil x ex [] h with h2 | h2
  · exact h2
  · simp at h2

/-! Lemmas for `extractOne` (running maximum, first maximum wins). -/

theorem extract_fold_spec (scorer : String → String → Nat) (q : String) :
    ∀ (keys : List String) (b : String × Nat),
      ∃ r : String × Nat,
        List.foldl (extractStep scorer q) (some b) keys = some r ∧
        (r = b ∨ (r.1 ∈ keys ∧ r.2 = scorer q r.1)) ∧
        b.2 ≤ r.2 ∧ ∀ t ∈ keys, scorer q t ≤ r.2 := by
  intro keys
  induction keys with
  | nil =>
    intro b
    exact ⟨b, rfl, Or.inl rfl, le_refl _, by simp⟩
  | cons k rest ih =>
    intro b
    by_cases hk : b.2 < scorer q k
    · obtain ⟨r, hr, hmem, hle, hall⟩ := ih (k, scorer q k)
      have hstep : extractStep scorer q (some b) k = some (k, scorer q k) := by
        simp [extractStep, hk]
      refine ⟨r, ?_, ?_, ?_, ?_⟩
      · rw [List.foldl_cons, hstep]
        exact hr
      · rcases hmem with h | h
        · exact Or.inr ⟨by rw [h]; exact List.mem_cons_self _ _, by rw [h]⟩
        · exact Or.inr ⟨List.mem_cons_of_mem _ h.1, h.2⟩
      · exact le_of_lt (lt_of_lt_of_le hk hle)
      · intro t ht
        rcases List.mem_cons.mp ht with h | h
        · subst h; exact hle
        · exact hall t h
    · obtain ⟨r, hr, hmem, hle, hall⟩ := ih b
      have hstep : extractStep scorer q (some b) k = some b := by
        simp [extractStep, hk]
      refine ⟨r, ?_, ?_, hle, ?_⟩
      · rw [List.foldl_cons, hstep]
        exact hr
      · rcases hmem with h | h
        · exact Or.inl h
        · exact Or.inr ⟨List.mem_cons_of_mem _ h.1, h.2⟩
      · intro t ht
        rcases List.mem_cons.mp ht with h | h
        · subst h
          exact le_trans (Nat.le_of_not_lt hk) hle
        · exact hall t h

theorem extractOne_cons (scorer : String → String → Nat) (q k : String)
    (rest : List String) :
    extractOne scorer q (k :: rest) =
      List.foldl (extractStep scorer q) (some (k, scorer q k)) rest := rfl

theorem extractOne_eq_some (scorer : String → String → Nat) (q : String)
    (keys : List String) (r : String × Nat) (h : extractOne scorer q keys = some r) :
    r.1 ∈ keys ∧ r.2 = scorer q r.1 ∧ ∀ t ∈ keys, scorer q t ≤ r.2 := by
  cases keys with
  | nil => simp [extractOne] at h
  | cons k rest =>
    obtain ⟨r2, hr2, hmem, hle, hall⟩ := extract_fold_spec scorer q rest (k, scorer q k)
    rw [extractOne_cons, hr2] at h
    obtain rfl : r2 = r := by injection h
    refine ⟨?_, ?_, ?_⟩
    · rcases hmem with h2 | h2
      · rw [h2]; exact List.mem_cons_self _ _
      · exact List.mem_cons_of_mem _ h2.1
    · rcases hmem with h2 | h2
      · rw [h2]
      · exact h2.2
    · intro t ht
      rcases List.mem_cons.mp ht with h2 | h2
      · subst h2; exact hle
      · exact hall t h2

theorem extractOne_exists (scorer : String → String → Nat) (q k : String)
    (rest : List String) : ∃ r, extractOne scorer q (k :: rest) = some r := by
  obtain ⟨r, hr, _⟩ := extract_fold_spec scorer q rest (k, scorer q k)
  exact ⟨r, by rw [extractOne_cons, hr]⟩

theorem extractOne_top (scorer : String → String → Nat) (q : String)
    (keys : List String) (t0 : String) (h0 : t0 ∈ keys) (hself : scorer q t0 = 100)
    (hlt : ∀ t ∈ keys, t ≠ t0 → scorer q t < 100) :
    extractOne scorer q keys = some (t0, 100) := by
  obtain ⟨k, rest, rfl⟩ : ∃ k rest, keys = k :: rest := by
    cases keys with
    | nil => simp at h0
    | cons k rest => exact ⟨k, rest, rfl⟩
  obtain ⟨r, hr⟩ := extractOne_exists scorer q k rest
  obtain ⟨hmem, hscore, hall⟩ := extractOne_eq_some scorer q _ r hr
  have h100 : 100 ≤ r.2 := hself ▸ hall t0 h0
  have ht0 : r.1 = t0 := by
    by_contra hne
    have := hlt r.1 hmem hne
    rw [hscore] at h100
    exact absurd (lt_of_lt_of_le this h100) (lt_irrefl _)
  have hs : r.2 = 100 := by
    rw [hscore, ht0, hself]
  rw [hr]
  rw [show r = (t0, 100) from Prod.ext ht0 hs]

/-! Introduction and inversion for `recognize`. -/

theorem recognize_ok_intro (scorer : String → String → Nat)
    (rw2 : List String → List String) (p2r : ExamplePath → NxGraph → Option Recognition)
    (input : String) (g : NxGraph) (ex : Examples) (filOpt : Option (String → Bool))
    (rn : Bool) (t : String) (s : Nat) (p : ExamplePath) (r : Recognition)
    (h1 : extractOne scorer (expandInput rw2 rn input)
        (keysOf (buildChoices (filOpt.getD (fun _ => true)) ex)) = some (t, s))
    (h2 : lookupAssoc t (buildChoices (filOpt.getD (fun _ => true)) ex) = some p)
    (h3 : p2r p g = some r) :
    recognize scorer rw2 p2r input g ex filOpt rn =
      Except.ok [finalizeRecognition r s (expandInput rw2 rn input)] := by
  unfold recognize
  rw [h1]
  simp only [recognizeStep1]
  rw [h2]
  simp only [recognizeStep2]
  rw [h3]
  simp only [recognizeStep3]

theorem recognize_ok_inv (scorer : String → String → Nat)
    (rw2 : List String → List String) (p2r : ExamplePath → NxGraph → Option Recognition)
    (input : String) (g : NxGraph) (ex : Examples) (filOpt : Option (String → Bool))
    (rn : Bool) (l : List Recognition)
    (h : recognize scorer rw2 p2r input g ex filOpt rn = Except.ok l) :
    ∃ t s p r,
      extractOne scorer (expandInput rw2 rn input)
          (keysOf (buildChoices (filOpt.getD (fun _ => true)) ex)) = some (t, s) ∧
      lookupAssoc t (buildChoices (filOpt.getD (fun _ => true)) ex) = some p ∧
      p2r p g = some r ∧
      l = [finalizeRecognition r s (expandInput rw2 rn input)] := by
  unfold recognize at h
  rcases hE : extractOne scorer (expandInput rw2 rn input)
      (keysOf (buildChoices (filOpt.getD (fun _ => true)) ex)) with _ | ts
  · rw [hE] at h
    simp [recognizeStep1] at h
  · obtain ⟨t, s⟩ := ts
    rw [hE] at h
    have h' : recognizeStep2 p2r g (buildChoices (filOpt.getD (fun _ => true)) ex)
        (expandInput rw2 rn input) s
        (lookupAssoc t (buildChoices (filOpt.getD (fun _ => true)) ex)) =
        Except.ok l := h
    rcases hL : lookupAssoc t (buildChoices (filOpt.getD (fun _ => true)) ex)
        with _ | p
    · rw [hL] at h'
      simp [recognizeStep2] at h'
    · rw [hL] at h'
      have h'' : recognizeStep3 s (expandInput rw2 rn input) (p2r p g) = Except.ok l := h'
      rcases hD : p2r p g with _ | r
      · rw [hD] at h''
        simp [recognizeStep3] at h''
      · rw [hD] at h''
        simp only [recognizeStep3, Except.ok.injEq] at h''
        exact ⟨t, s, p, r, rfl, hL, hD, h''.symm⟩

/-! Lemmas for `buildExamples` (the training fold). -/

theorem lookupExample_addExample (i0 t0 : String) (p : ExamplePath) (ex : Examples)
    (i t : String) :
    lookupExample (addExample i0 t0 p ex) i t =
      if i = i0 ∧ t = t0 then some p else lookupExample ex i t := by
  induction ex with
  | nil =>
    by_cases hi : i0 = i
    · subst hi
      by_cases ht : t0 = t
      · subst ht
        simp [addExample, lookupExample, lookupAssoc]
      · have ht2 : ¬t = t0 := fun h => ht h.symm
        simp [addExample, lookupExample, lookupAssoc, ht, ht2]
    · have hi2 : ¬i = i0 := fun h => hi h.symm
      simp [addExample, lookupExample, lookupAssoc, hi, hi2]
  | cons jm rest ih =>
    obtain ⟨j, m⟩ := jm
    by_cases hj : j = i0
    · subst hj
      by_cases hi : j = i
      · subst hi
        simp only [addExample, if_pos, lookupExample, lookupAssoc,
          lookupAssoc_insertAssoc]
        by_cases ht : t0 = t
        · subst ht
          simp
        · have ht2 : ¬t = t0 := fun h => ht h.symm
          simp [ht, ht2]
      · have hi2 : ¬i = j := fun h => hi h.symm
        simp [addExample, lookupExample, lookupAssoc, hi, hi2]
    · by_cases hi : j = i
      · subst hi
        have hi2 : ¬j = i0 := hj
        simp [addExample, hi2, lookupExample, lookupAssoc]
      · simp only [addExample, hj, if_neg, not_false_iff]
        simp only [lookupExample, lookupAssoc, hi, if_neg, not_false_iff]
        have := ih
        simp only [lookupExample] at this
        exact this

theorem buildExamples_fold_lookup (i t : String) :
    ∀ (ts : List (String × List String × ExamplePath)) (ex : Examples),
      lookupExample
          (List.foldl (fun e tup => addExample tup.1 (joinSpace tup.2.1) tup.2.2 e) ex ts)
          i t =
        List.foldl
          (fun acc tup =>
            if i = tup.1 ∧ t = joinSpace tup.2.1 then some tup.2.2 else acc)
          (lookupExample ex i t) ts := by
  intro ts
  induction ts with
  | nil => intro ex; rfl
  | cons tup rest ih =>
    intro ex
    rw [List.foldl_cons, List.foldl_cons, ih, lookupExample_addExample]

theorem addExample_innerNodup (i0 t0 : String) (p : ExamplePath) (ex : Examples)
    (h : ∀ im ∈ ex, (keysOf im.2).Nodup) :
    ∀ im ∈ addExample i0 t0 p ex, (keysOf im.2).Nodup := by
  induction ex with
  | nil =>
    intro im him
    simp [addExample] at him
    subst him
    simp [keysOf]
  | cons jm rest ih =>
    obtain ⟨j, m⟩ := jm
    intro im him
    by_cases hj : j = i0
    · simp only [addExample, hj, if_pos] at him
      rcases List.mem_cons.mp him with h2 | h2
      · subst h2
        exact keysOf_nodup_insertAssoc _ _ _ (h (j, m) (List.mem_cons_self _ _))
      · exact h im (List.mem_cons_of_mem _ h2)
    · simp only [addExample, hj, if_neg, not_false_iff] at him
      rcases List.mem_cons.mp him with h2 | h2
      · subst h2
        exact h (j, m) (List.mem_cons_self _ _)
      · exact ih (fun im2 h3 => h im2 (List.mem_cons_of_mem _ h3)) im h2

theorem buildExamples_fold_innerNodup :
    ∀ (ts : List (String × List String × ExamplePath)) (ex : Examples),
      (∀ im ∈ ex, (keysOf im.2).Nodup) →
      ∀ im ∈ List.foldl (fun e tup => addExample tup.1 (joinSpace tup.2.1) tup.2.2 e) ex ts,
        (keysOf im.2).Nodup := by
  intro ts
  induction ts with
  | nil => intro ex h; exact h
  | cons tup rest ih =>
    intro ex h
    rw [List.foldl_cons]
    exact ih _ (addExample_innerNodup _ _ _ ex h)

/-! JSON round-trip lemmas. -/

theorem pathToJson_roundtrip (p : ExamplePath) : jsonToPath (pathToJson p) = some p := by
  have h : ∀ ns : List Nat, decodeNums (ns.map JsonValue.num) = some ns := by
    intro ns
    induction ns with
    | nil => rfl
    | cons n rest ih => simp [decodeNums, decodeNum, ih]
  simpa [pathToJson, jsonToPath] using h p

theorem keysOf_append {α : Type} (l1 l2 : List (String × α)) :
    keysOf (l1 ++ l2) = keysOf l1 ++ keysOf l2 := by
  simp [keysOf]

theorem foldObj_roundtrip {α : Type} (dec : JsonValue → Option α) (enc : α → JsonValue) :
    ∀ (m acc : List (String × α)),
      (keysOf m).Nodup →
      (∀ k ∈ keysOf m, k ∉ keysOf acc) →
      (∀ kv ∈ m, dec (enc kv.2) = some kv.2) →
      foldObj dec (m.map (fun kv => (kv.1, enc kv.2))) acc = some (acc ++ m) := by
  intro m
  induction m with
  | nil => intro acc _ _ _; simp [foldObj]
  | cons kv rest ih =>
    intro acc hnd hfresh hdec
    obtain ⟨k, a⟩ := kv
    rw [keysOf_cons, List.nodup_cons] at hnd
    have hda : dec (enc a) = some a := hdec (k, a) (List.mem_cons_self _ _)
    simp only [List.map_cons, foldObj, hda]
    have hkacc : k ∉ keysOf acc :=
      hfresh k (by rw [keysOf_cons]; exact List.mem_cons_self _ _)
    rw [insertAssoc_fresh _ _ _ hkacc]
    have hfresh2 : ∀ k2 ∈ keysOf rest, k2 ∉ keysOf (acc ++ [(k, a)]) := by
      intro k2 hk2
      rw [keysOf_append]
      simp only [List.mem_append]
      rintro (h3 | h3)
      · exact hfresh k2 (by rw [keysOf_cons]; exact List.mem_cons_of_mem _ hk2) h3
      · have hkk : k2 = k := by simpa [keysOf] using h3
        exact hnd.1 (hkk ▸ hk2)
    have hrec := ih (acc ++ [(k, a)]) hnd.2 hfresh2
      (fun kv2 h2 => hdec kv2 (List.mem_cons_of_mem _ h2))
    rw [hrec]
    simp

theorem jsonToInner_roundtrip (m : ExampleMap) (h : (keysOf m).Nodup) :
    jsonToInner (innerToJson m) = some m := by
  have hr := foldObj_roundtrip jsonToPath pathToJson m [] h
    (by intro k _; simp [keysOf]) (fun kv _ => pathToJson_roundtrip kv.2)
  simpa [innerToJson, jsonToInner] using hr

theorem jsonToExamples_roundtrip (ex : Examples) (hnd : (keysOf ex).Nodup)
    (hinner : ∀ im ∈ ex, (keysOf im.2).Nodup) :
    jsonToExamples (examplesToJson ex) = some ex := by
  have hr := foldObj_roundtrip jsonToInner innerToJson ex [] hnd
    (by intro k _; simp [keysOf])
    (fun im him => jsonToInner_roundtrip im.2 (hinner im him))
  simpa [examplesToJson, jsonToExamples] using hr

/-! Concrete instances used by witnesses. -/

/-- A simple scorer instance for witnesses: exact match scores 100, anything
else 7 (within the documented [0, 100] range of the external scorer). -/
def demoScorer (a b : String) : Nat := if a = b then 100 else 7

/-- A recognition the demo decoder returns for the stored path. -/
def demoRec : Recognition :=
  { intent := { name := "greet", confidence := 0 },
    entities := [], rawText := "", rawTokens := [] }

/-- A demo `path_to_recognition`: decodes the stored path `[0]` to `demoRec`. -/
def demoDecode (p : ExamplePath) (_g : NxGraph) : Option Recognition :=
  if p = [0] then some demoRec else none

/-- A demo graph with two nodes (truthy). -/
def demoGraph : NxGraph := { nodes := [0, 1] }

/-- A demo trained index: one intent with one example. -/
def demoExamples : Examples := [("greet", [("hello", [0])])]

/-! The claims. -/

/-- Claim C1: the claim says that with an empty candidate set `recognize`
fails with the structured `NoTrainedData` outcome. The code instead calls
`fuzzywuzzy.process.extractOne` on the empty candidate dict, which returns
`None`, and the tuple unpacking raises `TypeError`: evaluated at a concrete
trained index whose single intent is rejected by the filter, `recognize`
produces the `TypeError` outcome, which is not `NoTrainedData`. -/
theorem C1_empty_candidates_typeerror :
    recognize (fun _ _ => 0) id (fun _ _ => none) "turn on" { nodes := [0] }
        [("lights", [("turn on", [0, 1])])] (some (fun _ => false)) true =
      Except.error RecognizeError.typeError ∧
    RecognizeError.typeError ≠ RecognizeError.noTrainedData :=
  ⟨rfl, by decide⟩

/-- Claim C2: when the inner `train` call raises, `handle_train` returns an
`NluError` carrying the exception message and the request id, and the
in-memory state is unchanged; the graph and index are assigned only when
`train` returns successfully (Python evaluates the call fully before the
tuple assignment binds either attribute). -/
theorem C2_train_failure_preserves_state (st : ServerState) (msgId : Option String)
    (siteId : String) :
    (∀ e, handle_train st msgId siteId (Except.error e) =
        (st, TrainOutcome.nluError siteId e msgId)) ∧
    (∀ g ex2, handle_train st msgId siteId (Except.ok (g, ex2)) =
        ({ st with intentGraph := some g, examples := some ex2 },
          TrainOutcome.trainSuccess msgId)) :=
  ⟨fun _ => rfl, fun _ _ => rfl⟩

/-- Claim C3: for every successful recognition, the returned confidence equals
the winning fuzzy-match score divided by 100, and lies in [0, 1] given the
[0, 100] range of the external scorer. -/
theorem C3_confidence_from_score (scorer : String → String → Nat)
    (rw2 : List String → List String) (p2r : ExamplePath → NxGraph → Option Recognition)
    (input : String) (g : NxGraph) (ex : Examples) (filOpt : Option (String → Bool))
    (rn : Bool) (l : List Recognition)
    (hbound : ∀ a b, scorer a b ≤ 100)
    (hok : recognize scorer rw2 p2r input g ex filOpt rn = Except.ok l) :
    ∀ r ∈ l,
      (∃ t s, extractOne scorer (expandInput rw2 rn input)
          (keysOf (buildChoices (filOpt.getD (fun _ => true)) ex)) = some (t, s) ∧
        r.intent.confidence = (s : ℚ) / 100) ∧
      0 ≤ r.intent.confidence ∧ r.intent.confidence ≤ 1 := by
  obtain ⟨t, s, p, r0, h1, h2, h3, h4⟩ :=
    recognize_ok_inv scorer rw2 p2r input g ex filOpt rn l hok
  intro r hr
  rw [h4, List.mem_singleton] at hr
  subst hr
  have hconf : (finalizeRecognition r0 s (expandInput rw2 rn input)).intent.confidence
      = (s : ℚ) / 100 := rfl
  have hs : s ≤ 100 := by
    have h5 := (extractOne_eq_some scorer _ _ _ h1).2.1
    simp only at h5
    rw [h5]
    exact hbound _ _
  refine ⟨⟨t, s, h1, hconf⟩, ?_, ?_⟩
  · rw [hconf]
    positivity
  · rw [hconf, div_le_one (by norm_num : (0 : ℚ) < 100)]
    exact_mod_cast hs

/-- Claim C3 witness. -/
theorem C3_confidence_from_score_witness :
    (∃ t s, extractOne demoScorer (expandInput id true "hello")
        (keysOf (buildChoices ((none : Option (String → Bool)).getD (fun _ => true))
          demoExamples)) = some (t, s) ∧
      (finalizeRecognition demoRec 100 "hello").intent.confidence = (s : ℚ) / 100) ∧
    0 ≤ (finalizeRecognition demoRec 100 "hello").intent.confidence ∧
    (finalizeRecognition demoRec 100 "hello").intent.confidence ≤ 1 :=
  C3_confidence_from_score demoScorer id demoDecode "hello" demoGraph demoExamples none
    true [finalizeRecognition demoRec 100 "hello"]
    (by intro a b; by_cases h : a = b <;> simp [demoScorer, h]) rfl
    (finalizeRecognition demoRec 100 "hello") (List.mem_singleton.mpr rfl)

/-- Claim C4: when the trained index contains an example whose text equals the
post-expansion input exactly and no other (filter-passing) intent stores an
identical example text, `recognize` returns the intent of that example with
confidence exactly 1. The external scorer is characterized by hypotheses
taken from the spec: it scores the exact text 100 and every other candidate below
100; the external decoder maps the stored path to a recognition named by its
intent. -/
theorem C4_exact_match_full_confidence (scorer : String → String → Nat)
    (rw2 : List String → List String) (p2r : ExamplePath → NxGraph → Option Recognition)
    (input : String) (g : NxGraph) (ex : Examples) (filOpt : Option (String → Bool))
    (intentName : String) (mI : ExampleMap) (p : ExamplePath) (r : Recognition)
    (hmem : (intentName, mI) ∈ ex)
    (hfil : (filOpt.getD (fun _ => true)) intentName = true)
    (hqm : (expandInput rw2 true input, p) ∈ mI)
    (huniq : ∀ i m p2, (i, m) ∈ ex → (filOpt.getD (fun _ => true)) i = true →
        (expandInput rw2 true input, p2) ∈ m → i = intentName ∧ p2 = p)
    (hself : scorer (expandInput rw2 true input) (expandInput rw2 true input) = 100)
    (hlt : ∀ t ∈ keysOf (buildChoices (filOpt.getD (fun _ => true)) ex),
        t ≠ expandInput rw2 true input → scorer (expandInput rw2 true input) t < 100)
    (hdec : p2r p g = some r)
    (hname : r.intent.name = intentName) :
    ∃ r2, recognize scorer rw2 p2r input g ex filOpt true = Except.ok [r2] ∧
      r2.intent.name = intentName ∧ r2.intent.confidence = 1 := by
  have hkey : expandInput rw2 true input ∈
      keysOf (buildChoices (filOpt.getD (fun _ => true)) ex) :=
    (mem_keys_buildChoices _ ex _).mpr
      ⟨intentName, mI, hmem, hfil, List.mem_map_of_mem Prod.fst hqm⟩
  have hex : extractOne scorer (expandInput rw2 true input)
      (keysOf (buildChoices (filOpt.getD (fun _ => true)) ex)) =
      some (expandInput rw2 true input, 100) :=
    extractOne_top scorer _ _ _ hkey hself hlt
  obtain ⟨p2, hp2⟩ := lookup_isSome_of_mem_keys _ _ hkey
  obtain ⟨i, m, him, hfi, hqm2⟩ := mem_buildChoices_elim _ ex _ (lookupAssoc_mem _ _ _ hp2)
  obtain ⟨hieq, hpeq⟩ := huniq i m p2 him hfi hqm2
  subst hpeq
  have hrec := recognize_ok_intro scorer rw2 p2r input g ex filOpt true
    (expandInput rw2 true input) 100 p2 r hex hp2 hdec
  refine ⟨finalizeRecognition r 100 (expandInput rw2 true input), hrec, hname, ?_⟩
  show (100 : ℚ) / 100 = 1
  norm_num

/-- Claim C4 witness. -/
theorem C4_exact_match_full_confidence_witness :
    ∃ r2, recognize demoScorer id demoDecode "hello" demoGraph demoExamples none true =
        Except.ok [r2] ∧
      r2.intent.name = "greet" ∧ r2.intent.confidence = 1 :=
  C4_exact_match_full_confidence demoScorer id demoDecode "hello" demoGraph demoExamples
    none "greet" [("hello", [0])] [0] demoRec
    (by decide) rfl (by decide)
    (by
      intro i m p2 him hfi hpm
      simp only [demoExamples, List.mem_singleton, Prod.ext_iff] at him
      obtain ⟨hi, hm⟩ := him
      subst hi
      subst hm
      rw [List.mem_singleton, Prod.ext_iff] at hpm
      exact ⟨rfl, hpm.2⟩)
    (by simp [demoScorer])
    (by
      intro t ht hne
      have he : keysOf (buildChoices
          ((none : Option (String → Bool)).getD (fun _ => true)) demoExamples) =
          ["hello"] := rfl
      rw [he, List.mem_singleton] at ht
      subst ht
      exact absurd rfl hne)
    rfl rfl

/-- Claim C5: the training fold keys each enumerated example by the
space-join of its rendered words under its intent, a later tuple of the same
intent with the same rendered text overwriting the earlier path, so the
lookup of the built index is exactly the last-generated path, and example
texts within one intent are unique keys. -/
theorem C5_examples_fold (ts : List (String × List String × ExamplePath)) :
    (∀ i t, lookupExample (buildExamples ts) i t = lastGeneratedPath i t ts) ∧
    (∀ im ∈ buildExamples ts, (keysOf im.2).Nodup) := by
  constructor
  · intro i t
    have h := buildExamples_fold_lookup i t ts []
    simpa [buildExamples, lastGeneratedPath, lookupExample, lookupAssoc] using h
  · exact buildExamples_fold_innerNodup ts []
      (by intro im h; simp at h)

/-- Claim C5 witness: two tuples of one intent rendering the same text; the
later path wins and the inner keys are unique. -/
theorem C5_examples_fold_witness :
    lookupExample (buildExamples [("a", (["x"], [0])), ("a", (["x"], [1]))]) "a" "x" =
      lastGeneratedPath "a" "x" [("a", (["x"], [0])), ("a", (["x"], [1]))] ∧
    (keysOf [("x", [1])]).Nodup :=
  ⟨(C5_examples_fold [("a", (["x"], [0])), ("a", (["x"], [1]))]).1 "a" "x",
   (C5_examples_fold [("a", (["x"], [0])), ("a", (["x"], [1]))]).2
     ("a", [("x", [1])]) (by decide)⟩

/-- Claim C6: the candidate set built by `recognize` draws every entry from an
intent passing the filter, contains the texts of every entry of every passing
intent, and with no filter supplied (`None`, replaced by `lambda i: True`) it
covers the entries of all intents. -/
theorem C6_candidate_set (ex : Examples) (filOpt : Option (String → Bool)) :
    (∀ t p, (t, p) ∈ buildChoices (filOpt.getD (fun _ => true)) ex →
        ∃ i m, (i, m) ∈ ex ∧ (filOpt.getD (fun _ => true)) i = true ∧ (t, p) ∈ m) ∧
    (∀ i m t p, (i, m) ∈ ex → (filOpt.getD (fun _ => true)) i = true → (t, p) ∈ m →
        t ∈ keysOf (buildChoices (filOpt.getD (fun _ => true)) ex)) ∧
    (filOpt = none → ∀ i m t p, (i, m) ∈ ex → (t, p) ∈ m →
        t ∈ keysOf (buildChoices (fun _ : String => true) ex)) := by
  refine ⟨?_, ?_, ?_⟩
  · intro t p h
    exact mem_buildChoices_elim _ ex (t, p) h
  · intro i m t p him hfi htp
    exact (mem_keys_buildChoices _ ex t).mpr
      ⟨i, m, him, hfi, List.mem_map_of_mem Prod.fst htp⟩
  · intro _ i m t p him htp
    exact (mem_keys_buildChoices _ ex t).mpr
      ⟨i, m, him, rfl, List.mem_map_of_mem Prod.fst htp⟩

/-- Claim C6 witness. -/
theorem C6_candidate_set_witness :
    "hello" ∈ keysOf (buildChoices
      ((none : Option (String → Bool)).getD (fun _ => true)) demoExamples) :=
  (C6_candidate_set demoExamples none).2.1 "greet" [("hello", [0])] "hello" [0]
    (by decide) rfl (by decide)

/-- Claim C7: serializing a well-formed non-empty examples index to JSON (the
write in `train`) and deserializing it (the read in `handle_query`) yields a
structurally equal index. Well-formedness (unique keys at both dict levels)
holds of every index produced by Python dicts. -/
theorem C7_examples_json_roundtrip (ex : Examples) (hne : ex ≠ [])
    (hnd : (keysOf ex).Nodup) (hinner : ∀ im ∈ ex, (keysOf im.2).Nodup) :
    jsonToExamples (examplesToJson ex) = some ex :=
  jsonToExamples_roundtrip ex hnd hinner

/-- Claim C7 witness. -/
theorem C7_examples_json_roundtrip_witness :
    jsonToExamples (examplesToJson [("greet", [("hello", [0]), ("hi", [1])])]) =
      some [("greet", [("hello", [0]), ("hi", [1])])] :=
  C7_examples_json_roundtrip [("greet", [("hello", [0]), ("hi", [1])])]
    (by decide) (by decide) (by decide)

/-- Claim C8: with `replace_numbers` enabled, the scored query is the
space-joined numeral-expanded input (so expansion happens before any
scoring), and the `raw_text` of the returned recognition is that post-expansion
text and its `raw_tokens` is the same text split on whitespace. -/
theorem C8_numbers_before_scoring (scorer : String → String → Nat)
    (rw2 : List String → List String) (p2r : ExamplePath → NxGraph → Option Recognition)
    (input : String) (g : NxGraph) (ex : Examples) (filOpt : Option (String → Bool))
    (l : List Recognition)
    (hok : recognize scorer rw2 p2r input g ex filOpt true = Except.ok l) :
    (∃ t s, extractOne scorer (joinSpace (rw2 (pySplit input)))
        (keysOf (buildChoices (filOpt.getD (fun _ => true)) ex)) = some (t, s)) ∧
    ∀ r ∈ l, r.rawText = joinSpace (rw2 (pySplit input)) ∧
      r.rawTokens = pySplit (joinSpace (rw2 (pySplit input))) := by
  obtain ⟨t, s, p, r0, h1, h2, h3, h4⟩ :=
    recognize_ok_inv scorer rw2 p2r input g ex filOpt true l hok
  have he : expandInput rw2 true input = joinSpace (rw2 (pySplit input)) := rfl
  rw [he] at h1
  refine ⟨⟨t, s, h1⟩, ?_⟩
  intro r hr
  rw [h4, List.mem_singleton] at hr
  subst hr
  exact ⟨he, congrArg pySplit he⟩

/-- Claim C8 witness. -/
theorem C8_numbers_before_scoring_witness :
    (∃ t s, extractOne demoScorer (joinSpace (id (pySplit "hello")))
        (keysOf (buildChoices ((none : Option (String → Bool)).getD (fun _ => true))
          demoExamples)) = some (t, s)) ∧
    ∀ r ∈ [finalizeRecognition demoRec 100 "hello"],
      r.rawText = joinSpace (id (pySplit "hello")) ∧
      r.rawTokens = pySplit (joinSpace (id (pySplit "hello"))) :=
  C8_numbers_before_scoring demoScorer id demoDecode "hello" demoGraph demoExamples none
    [finalizeRecognition demoRec 100 "hello"] rfl

/-- Claim C9: when after the lazy loads no truthy intent graph or no truthy
examples index is available, `handle_query` publishes
`NluIntentNotRecognized` instead of raising. -/
theorem C9_no_data_not_recognized (scorer : String → String → Nat)
    (rw2 : List String → List String) (p2r : ExamplePath → NxGraph → Option Recognition)
    (st : ServerState) (q : NluQuery)
    (h : graphTruthy (effectiveGraph st) = false ∨
      examplesTruthy (effectiveExamples st) = false) :
    (handle_query scorer rw2 p2r st q).2 = QueryOutcome.notRecognized q.input := by
  unfold handle_query
  rcases hg : effectiveGraph st with _ | g
  · rfl
  · rcases he : effectiveExamples st with _ | ex2
    · rfl
    · have hcond : (graphTruthy (some g) && examplesTruthy (some ex2)) = false := by
        rcases h with h | h
        · rw [hg] at h
          rw [h]
          simp
        · rw [he] at h
          rw [h]
          simp
      simp [hcond]

/-- Claim C9 witness. -/
theorem C9_no_data_not_recognized_witness :
    (handle_query demoScorer id demoDecode
      { intentGraph := none, examples := none,
        intentGraphFile := none, examplesFile := none }
      { input := "hi", id := none, siteId := "default", sessionId := none,
        intentFilter := none }).2 = QueryOutcome.notRecognized "hi" :=
  C9_no_data_not_recognized demoScorer id demoDecode
    { intentGraph := none, examples := none,
      intentGraphFile := none, examplesFile := none }
    { input := "hi", id := none, siteId := "default", sessionId := none,
      intentFilter := none }
    (Or.inl rfl)

/-- Claim C10: whenever `recognize` returns normally it returns a list with
exactly one recognition (the source ends with `return [recognition]`), never
empty and never longer. -/
theorem C10_single_recognition (scorer : String → String → Nat)
    (rw2 : List String → List String) (p2r : ExamplePath → NxGraph → Option Recognition)
    (input : String) (g : NxGraph) (ex : Examples) (filOpt : Option (String → Bool))
    (rn : Bool) (l : List Recognition)
    (hok : recognize scorer rw2 p2r input g ex filOpt rn = Except.ok l) :
    ∃ r, l = [r] := by
  obtain ⟨t, s, p, r0, h1, h2, h3, h4⟩ :=
    recognize_ok_inv scorer rw2 p2r input g ex filOpt rn l hok
  exact ⟨finalizeRecognition r0 s (expandInput rw2 rn input), h4⟩

/-- Claim C10 witness. -/
theorem C10_single_recognition_witness :
    ∃ r, [finalizeRecognition demoRec 100 "hello"] = [r] :=
  C10_single_recognition demoScorer id demoDecode "hello" demoGraph demoExamples none
    true [finalizeRecognition demoRec 100 "hello"] rfl
